import Mathlib

/-!
# Rate limiter (rateLimiter.go)

A shallow embedding of the accounting engine of `rateLimiter.go`:

* the `limiter` struct (two Go maps keyed by the reported URL),
* `limiter.shouldLimit` (TTL sweep, threshold check, increment),
* the ticker goroutine of `main` (bulk deletion of every count),
* the `/report` handler of `main` (call `shouldLimit`, then re-read the count).

Modelling conventions.

* A Go map is an association list read through its first binding of a key;
  deletion removes every binding of the key and assignment replaces them, so the
  map laws hold for every list.
* A `range` loop visits the keys in list order.  Go leaves the order unspecified;
  `sweep_lastAccess` and `sweep_counts` describe the result of the expiry loop by
  the bindings of each key alone, so the order does not matter.
* `time.Time` is an integer (nanoseconds).  One call of `shouldLimit` observes a
  single instant `now`, passed explicitly: it stands for all the `time.Since` /
  `time.Now` readings made during that call.
* `time.Duration` is an `int64` of nanoseconds.  `time.Since(v)` is
  `time.Now().Sub(v)`, which saturates at the largest and the smallest
  `Duration`: `since` does the same.  A TTL is a `Duration`; an `Int` outside the
  `int64` range stands for no Go value and is read saturated (`toDuration`), which
  changes nothing for the values Go can pass.
* Go `int` is `Int`.  The only arithmetic on counts is `counts[url]++`, executed
  when the key is absent (result `1`) or when `count < threshold`, so the result
  never exceeds `threshold`, itself a Go `int`: the increment cannot overflow.
* `shouldLimit` and the ticker hold the mutex from their first to their last
  access, so each is one atomic step and a run is a sequence of such steps in the
  order in which the mutex is taken.  The handler reads `counts[url]` after
  `shouldLimit` has released the mutex: `report` is the handler when nothing takes
  the mutex in between, `reportInterleaved` takes the operations that do.
-/

namespace RateLimiter

/-- A Go `map[string]int` / `map[string]time.Time`, as an association list. -/
abbrev GoMap := List (String × Int)

/-- The expression `v, ok := m[k]`: the binding of `k`, if any. -/
def mapGet (m : GoMap) (k : String) : Option Int :=
  match m with
  | [] => none
  | (k', v) :: rest => if k' = k then some v else mapGet rest k

/-- The expression `m[k]` used as a value: the zero value when `k` is absent. -/
def mapGetD (m : GoMap) (k : String) : Int :=
  (mapGet m k).getD 0

/-- The statement `delete(m, k)`. -/
def mapDelete (m : GoMap) (k : String) : GoMap :=
  m.filter (fun p => decide (p.1 ≠ k))

/-- The statement `m[k] = v`. -/
def mapSet (m : GoMap) (k : String) (v : Int) : GoMap :=
  (k, v) :: mapDelete m k

/-- The keys a `range` loop over `m` starts from. -/
def mapKeys (m : GoMap) : List String :=
  m.map Prod.fst

/-- The `limiter` struct, without its mutex. -/
structure Limiter where
  lastAccess : GoMap
  counts : GoMap
deriving DecidableEq, Repr

/-- The limiter built in `main`: two empty maps. -/
def Limiter.empty : Limiter :=
  { lastAccess := [], counts := [] }

/-- The largest `time.Duration`: `1<<63 - 1` nanoseconds. -/
def maxDuration : Int := 9223372036854775807

/-- The smallest `time.Duration`: `-1 << 63` nanoseconds. -/
def minDuration : Int := -9223372036854775808

/-- A number of nanoseconds as a `time.Duration`: out of the `int64` range it
saturates, as `Time.Sub` does. -/
def toDuration (d : Int) : Int :=
  if d > maxDuration then maxDuration
  else if d < minDuration then minDuration
  else d

/-- The call `time.Since(v)` made at the instant `now`: `now.Sub(v)`, the
difference as a saturated `time.Duration`. -/
def since (now v : Int) : Int :=
  toDuration (now - v)

/-- One iteration of the expiry loop of `shouldLimit` (lines 34-40), at key `k`:
a key deleted by an earlier iteration is not produced; otherwise its current
value `v` is read and, if `time.Since(v) > ttl`, the key is deleted from both
maps. -/
def sweepStep (now ttl : Int) (l : Limiter) (k : String) : Limiter :=
  match mapGet l.lastAccess k with
  | none => l
  | some v =>
    if since now v > toDuration ttl then
      { lastAccess := mapDelete l.lastAccess k, counts := mapDelete l.counts k }
    else l

/-- The expiry loop of `shouldLimit` (lines 34-40): `range` over `lastAccess`. -/
def sweep (now ttl : Int) (l : Limiter) : Limiter :=
  (mapKeys l.lastAccess).foldl (sweepStep now ttl) l

/-- The method `limiter.shouldLimit` called at time `now`: the returned boolean
and the limiter it leaves. -/
def shouldLimit (l : Limiter) (now : Int) (url : String) (threshold ttl : Int) :
    Bool × Limiter :=
  let l1 := sweep now ttl l
  match mapGet l1.counts url with
  | some count =>
    if count ≥ threshold then (true, l1)
    else
      (false, { lastAccess := mapSet l1.lastAccess url now,
                counts := mapSet l1.counts url (count + 1) })
  | none =>
    (false, { lastAccess := mapSet l1.lastAccess url now,
              counts := mapSet l1.counts url (0 + 1) })

/-- One firing of the ticker goroutine of `main` (lines 92-96): every key of
`counts` is deleted; `lastAccess` is not touched. -/
def tick (l : Limiter) : Limiter :=
  { lastAccess := l.lastAccess,
    counts := (mapKeys l.counts).foldl mapDelete l.counts }

/-- The `/report` handler of `main` (lines 111-125) for a decoded request, when no
other goroutine takes the mutex between its two steps: `shouldLimit` is called
and its result dropped, then `counts[url]` is read again and compared with the
threshold.  Returns the `blocked` field of the response and the limiter left
behind.  (`reportInterleaved` is the handler with other operations in between.) -/
def report (l : Limiter) (now : Int) (url : String) (threshold ttl : Int) :
    Bool × Limiter :=
  let r := shouldLimit l now url threshold ttl
  (decide (mapGetD r.2.counts url ≥ threshold), r.2)

/-- Whether the expiry loop deletes key `k`: it is tracked in `lastAccess` with
`time.Since(lastAccess[k]) > ttl`. -/
def isExpired (now ttl : Int) (l : Limiter) (k : String) : Bool :=
  match mapGet l.lastAccess k with
  | some v => decide (since now v > toDuration ttl)
  | none => false

/-! ## Runs -/

/-- One call of a run of `shouldLimit` calls: when it was made, what it
returned and the limiter it left. -/
structure CallRecord where
  time : Int
  limited : Bool
  after : Limiter
deriving DecidableEq, Repr

/-- Consecutive `shouldLimit(url, threshold, ttl)` calls made at the times `ts`,
starting from `l`, with nothing else touching the limiter in between. -/
def runCalls (url : String) (threshold ttl : Int) : Limiter → List Int → List CallRecord
  | _, [] => []
  | l, t :: ts =>
    let r := shouldLimit l t url threshold ttl
    { time := t, limited := r.1, after := r.2 } :: runCalls url threshold ttl r.2 ts

/-- Every call of the run is made at most `ttl` after the previous accepted call
(a call that returned `false`); `last` is the time of the latest accepted call
before the run, if there is one. -/
def withinTtl (ttl : Int) : Option Int → List CallRecord → Bool
  | _, [] => true
  | none, c :: rest =>
    withinTtl ttl (if c.limited then none else some c.time) rest
  | some t0, c :: rest =>
    decide (c.time - t0 ≤ ttl) &&
      withinTtl ttl (if c.limited then some t0 else some c.time) rest

/-- Consecutive `/report` requests `(url, time)` served from `l`: the `blocked`
field of each response, in order. -/
def runReports (threshold ttl : Int) : Limiter → List (String × Int) → List Bool
  | _, [] => []
  | l, (url, now) :: rest =>
    let r := report l now url threshold ttl
    r.1 :: runReports threshold ttl r.2 rest

/-- What can happen to the limiter of a running server: a `shouldLimit` call for
some URL, or a firing of the ticker; each at some instant. -/
inductive Event where
  | call (url : String) (now : Int)
  | reset (now : Int)
deriving DecidableEq, Repr

/-- The instant of an event. -/
def Event.time : Event → Int
  | .call _ now => now
  | .reset now => now

/-- Whether the event is a firing of the ticker. -/
def Event.isReset : Event → Bool
  | .call _ _ => false
  | .reset _ => true

/-- The limiter after one event, for the threshold and TTL the server was
started with. -/
def step (threshold ttl : Int) (l : Limiter) : Event → Limiter
  | .call url now => (shouldLimit l now url threshold ttl).2
  | .reset _ => tick l

/-- The limiter after a sequence of events. -/
def exec (threshold ttl : Int) (l : Limiter) (es : List Event) : Limiter :=
  es.foldl (step threshold ttl) l

/-- Whether the event is a `shouldLimit` call for `url` that returns `false`
(an accepted report) when made on `l`. -/
def isAccepted (threshold ttl : Int) (url : String) (l : Limiter) : Event → Bool
  | .call u now => decide (u = url) && !(shouldLimit l now u threshold ttl).1
  | .reset _ => false

/-- The number of accepted reports of `url` while the events `es` are executed
from `l`. -/
def accepted (threshold ttl : Int) (url : String) : Limiter → List Event → Nat
  | _, [] => 0
  | l, e :: es =>
    (if isAccepted threshold ttl url l e then 1 else 0) +
      accepted threshold ttl url (step threshold ttl l e) es

/-- The instants at which the ticker fires during a sequence of events. -/
def resetTimes : List Event → List Int
  | [] => []
  | .call _ _ :: es => resetTimes es
  | .reset t :: es => t :: resetTimes es

/-- Whether every element of a list of instants and the one after it satisfy `r`. -/
def adjacent (r : Int → Int → Bool) : List Int → Bool
  | a :: b :: rest => r a b && adjacent r (b :: rest)
  | _ => true

/-- Event times never go backwards. -/
def nonDecreasing (es : List Event) : Bool :=
  adjacent (fun a b => decide (a ≤ b)) (es.map Event.time)

/-- The ticker fires exactly every `ttl`: each firing is `ttl` after the one
before it. -/
def ticksEvery (ttl : Int) (es : List Event) : Bool :=
  adjacent (fun a b => decide (b = a + ttl)) (resetTimes es)

/-! ## The handler next to `shouldLimit` -/

/-- Consecutive `/report` requests for `url` made at the times `ts`, served from
`l`: for each request, the boolean its `shouldLimit` call returned and the
`blocked` field the handler answered. -/
def runHandler (url : String) (threshold ttl : Int) : Limiter → List Int → List (Bool × Bool)
  | _, [] => []
  | l, t :: ts =>
    ((shouldLimit l t url threshold ttl).1, (report l t url threshold ttl).1) ::
      runHandler url threshold ttl (report l t url threshold ttl).2 ts

/-- The `/report` handler when other goroutines take the mutex between the return
of `shouldLimit` (line 112, mutex released by the deferred `Unlock`) and the read
of `counts[url]` (line 117, made without the mutex): `between` are their
operations, calls of other requests and firings of the ticker, in the order in
which they take the mutex.  Returns the `blocked` field and the limiter left. -/
def reportInterleaved (between : List Event) (l : Limiter) (now : Int) (url : String)
    (threshold ttl : Int) : Bool × Limiter :=
  let r := shouldLimit l now url threshold ttl
  let l2 := exec threshold ttl r.2 between
  (decide (mapGetD l2.counts url ≥ threshold), l2)

/-! ## Operations with their own parameters -/

/-- An operation on the limiter in which every `shouldLimit` call carries its own
threshold and TTL. -/
inductive Op where
  | call (url : String) (now threshold ttl : Int)
  | tick
deriving DecidableEq, Repr

/-- The limiter after one operation. -/
def applyOp (l : Limiter) : Op → Limiter
  | .call url now threshold ttl => (shouldLimit l now url threshold ttl).2
  | .tick => tick l

/-- The limiter after a sequence of operations. -/
def applyOps (l : Limiter) (ops : List Op) : Limiter :=
  ops.foldl applyOp l

/-! ## Map accesses and the mutex -/

/-- The two maps of the limiter. -/
inductive MapName where
  | lastAccess
  | counts
deriving DecidableEq, Repr

/-- What a code path does to the mutex and to the maps, in program order. -/
inductive Access where
  | lock
  | unlock
  | read (m : MapName)
  | write (m : MapName)
deriving DecidableEq, Repr

/-- The accesses of one iteration of the expiry loop (lines 34-40) at key `k`,
appended to those made so far: the `range` clause reads `lastAccess`; an expired
key is deleted from `lastAccess` and from `counts`. -/
def sweepStepAccesses (now ttl : Int) (st : Limiter × List Access) (k : String) :
    Limiter × List Access :=
  match mapGet st.1.lastAccess k with
  | none => st
  | some v =>
    if since now v > toDuration ttl then
      ({ lastAccess := mapDelete st.1.lastAccess k, counts := mapDelete st.1.counts k },
        st.2 ++ [Access.read MapName.lastAccess, Access.write MapName.lastAccess,
          Access.write MapName.counts])
    else (st.1, st.2 ++ [Access.read MapName.lastAccess])

/-- The accesses of the whole expiry loop. -/
def sweepAccesses (now ttl : Int) (l : Limiter) : List Access :=
  ((mapKeys l.lastAccess).foldl (sweepStepAccesses now ttl) (l, [])).2

/-- The accesses of `shouldLimit` (lines 30-53): `Lock`, the expiry loop, the read
`l.counts[url]`, on the accepting path the assignment to `lastAccess[url]` and
the increment of `counts[url]` (a read and a write), and the deferred `Unlock`. -/
def shouldLimitAccesses (l : Limiter) (now : Int) (url : String) (threshold ttl : Int) :
    List Access :=
  [Access.lock] ++ sweepAccesses now ttl l ++ [Access.read MapName.counts] ++
    (if (shouldLimit l now url threshold ttl).1 then []
     else [Access.write MapName.lastAccess, Access.read MapName.counts,
       Access.write MapName.counts]) ++
    [Access.unlock]

/-- The accesses of one firing of the ticker (lines 92-96): `Lock`, for every key
of `counts` the `range` read and the `delete`, `Unlock`. -/
def tickAccesses (l : Limiter) : List Access :=
  [Access.lock] ++
    (mapKeys l.counts).flatMap
      (fun _ => [Access.read MapName.counts, Access.write MapName.counts]) ++
    [Access.unlock]

/-- The accesses of the `/report` handler (lines 112-125): the call of
`shouldLimit`, then the read `lim.counts[req.URL]` of the comparison (line 117)
and the one of the log line (line 118 or 124). -/
def reportAccesses (l : Limiter) (now : Int) (url : String) (threshold ttl : Int) :
    List Access :=
  shouldLimitAccesses l now url threshold ttl ++
    [Access.read MapName.counts, Access.read MapName.counts]

/-- Whether the mutex is held after the accesses `as`, when `held` says whether it
was held before them. -/
def heldAfter : Bool → List Access → Bool
  | held, [] => held
  | _, Access.lock :: rest => heldAfter true rest
  | _, Access.unlock :: rest => heldAfter false rest
  | held, Access.read _ :: rest => heldAfter held rest
  | held, Access.write _ :: rest => heldAfter held rest

/-- Whether every read and every write of a map in `as` is made while the mutex
is held, when `held` says whether it was held before them. -/
def lockedAccesses : Bool → List Access → Bool
  | _, [] => true
  | _, Access.lock :: rest => lockedAccesses true rest
  | _, Access.unlock :: rest => lockedAccesses false rest
  | held, Access.read _ :: rest => held && lockedAccesses held rest
  | held, Access.write _ :: rest => held && lockedAccesses held rest

/-! ## Laws of the map operations -/

theorem mapDelete_cons (a : String) (b : Int) (rest : GoMap) (k : String) :
    mapDelete ((a, b) :: rest) k =
      if a = k then mapDelete rest k else (a, b) :: mapDelete rest k := by
  by_cases h : a = k <;> simp [mapDelete, List.filter_cons, h]

theorem mapGet_cons (a : String) (b : Int) (rest : GoMap) (k : String) :
    mapGet ((a, b) :: rest) k = if a = k then some b else mapGet rest k := rfl

theorem mapGet_mapDelete_self (m : GoMap) (k : String) :
    mapGet (mapDelete m k) k = none := by
  induction m with
  | nil => rfl
  | cons p rest ih =>
    obtain ⟨a, b⟩ := p
    rw [mapDelete_cons]
    by_cases h : a = k
    · rw [if_pos h]; exact ih
    · rw [if_neg h, mapGet_cons, if_neg h]; exact ih

theorem mapGet_mapDelete_ne (m : GoMap) {k k' : String} (hne : k' ≠ k) :
    mapGet (mapDelete m k) k' = mapGet m k' := by
  induction m with
  | nil => rfl
  | cons p rest ih =>
    obtain ⟨a, b⟩ := p
    rw [mapDelete_cons, mapGet_cons]
    by_cases h : a = k
    · have h' : ¬ a = k' := fun e => hne (e.symm.trans h)
      rw [if_pos h, if_neg h']; exact ih
    · rw [if_neg h, mapGet_cons]
      by_cases h2 : a = k'
      · rw [if_pos h2, if_pos h2]
      · rw [if_neg h2, if_neg h2]; exact ih

theorem mapGet_mapSet_self (m : GoMap) (k : String) (v : Int) :
    mapGet (mapSet m k v) k = some v := by
  simp [mapSet, mapGet]

theorem mapGet_mapSet_ne (m : GoMap) {k k' : String} (v : Int) (hne : k' ≠ k) :
    mapGet (mapSet m k v) k' = mapGet m k' := by
  have h : ¬ k = k' := fun e => hne e.symm
  simp [mapSet, mapGet, h, mapGet_mapDelete_ne m hne]

theorem mem_mapKeys_of_mapGet {m : GoMap} {k : String} {v : Int}
    (h : mapGet m k = some v) : k ∈ mapKeys m := by
  induction m with
  | nil => simp [mapGet] at h
  | cons p rest ih =>
    by_cases hp : p.1 = k
    · simp [mapKeys, hp]
    · simp only [mapGet, hp, if_false] at h
      have := ih h
      simp only [mapKeys, List.map_cons, List.mem_cons]
      exact Or.inr this

/-! ## The expiry loop -/

/-- Saturation keeps the order of durations. -/
theorem toDuration_mono {a b : Int} (h : a ≤ b) : toDuration a ≤ toDuration b := by
  unfold toDuration maxDuration minDuration
  split_ifs <;> omega

/-- A duration inside the `int64` range is not changed by saturation. -/
theorem toDuration_of_mem {d : Int} (hlo : minDuration ≤ d) (hhi : d ≤ maxDuration) :
    toDuration d = d := by
  unfold toDuration
  unfold maxDuration minDuration at *
  split_ifs <;> omega

/-- An entry whose exact age is at most the TTL does not pass the test
`time.Since(v) > ttl`. -/
theorem since_not_gt_of_le {now v ttl : Int} (h : now - v ≤ ttl) :
    ¬ since now v > toDuration ttl :=
  not_lt.mpr (toDuration_mono h)

/-- For a TTL below the largest `Duration`, the test `time.Since(v) > ttl` is the
comparison of the exact age with the TTL. -/
theorem since_gt_iff {now v ttl : Int} (hlo : minDuration ≤ ttl) (hhi : ttl < maxDuration) :
    since now v > toDuration ttl ↔ now - v > ttl := by
  unfold since toDuration
  unfold maxDuration minDuration at *
  split_ifs <;> constructor <;> intro h <;> omega

theorem isExpired_of_mapGet {now ttl : Int} {l : Limiter} {k : String} {v : Int}
    (h : mapGet l.lastAccess k = some v) :
    isExpired now ttl l k = decide (since now v > toDuration ttl) := by
  simp [isExpired, h]

theorem isExpired_of_mapGet_none {now ttl : Int} {l : Limiter} {k : String}
    (h : mapGet l.lastAccess k = none) : isExpired now ttl l k = false := by
  simp [isExpired, h]

theorem sweepStep_of_expired {now ttl : Int} {l : Limiter} {k : String}
    (h : isExpired now ttl l k = true) :
    sweepStep now ttl l k =
      { lastAccess := mapDelete l.lastAccess k, counts := mapDelete l.counts k } := by
  unfold isExpired at h
  unfold sweepStep
  cases hg : mapGet l.lastAccess k with
  | none => rw [hg] at h; simp at h
  | some v =>
    rw [hg] at h
    have hv : since now v > toDuration ttl := by simpa using h
    simp [hv]

theorem sweepStep_of_not_expired {now ttl : Int} {l : Limiter} {k : String}
    (h : isExpired now ttl l k = false) : sweepStep now ttl l k = l := by
  unfold isExpired at h
  unfold sweepStep
  cases hg : mapGet l.lastAccess k with
  | none => rfl
  | some v =>
    rw [hg] at h
    have hv : ¬ since now v > toDuration ttl := by simpa using h
    simp [hv]

/-- What one iteration of the expiry loop does to the two bindings of a key. -/
theorem sweepStep_get (now ttl : Int) (l : Limiter) (k' k : String) :
    mapGet (sweepStep now ttl l k').lastAccess k =
        (if k = k' ∧ isExpired now ttl l k = true then none
         else mapGet l.lastAccess k) ∧
      mapGet (sweepStep now ttl l k').counts k =
        (if k = k' ∧ isExpired now ttl l k = true then none
         else mapGet l.counts k) := by
  cases hexp : isExpired now ttl l k' with
  | false =>
    rw [sweepStep_of_not_expired hexp]
    have hc : ¬ (k = k' ∧ isExpired now ttl l k = true) := by
      rintro ⟨rfl, h⟩
      rw [hexp] at h
      exact Bool.false_ne_true h
    rw [if_neg hc, if_neg hc]
    exact ⟨rfl, rfl⟩
  | true =>
    rw [sweepStep_of_expired hexp]
    by_cases hk : k = k'
    · subst hk
      have hc : k = k ∧ isExpired now ttl l k = true := ⟨rfl, hexp⟩
      rw [if_pos hc, if_pos hc]
      exact ⟨mapGet_mapDelete_self _ _, mapGet_mapDelete_self _ _⟩
    · have hc : ¬ (k = k' ∧ isExpired now ttl l k = true) := fun h => hk h.1
      rw [if_neg hc, if_neg hc]
      exact ⟨mapGet_mapDelete_ne _ hk, mapGet_mapDelete_ne _ hk⟩

theorem sweepStep_isExpired (now ttl : Int) (l : Limiter) (k' k : String) :
    isExpired now ttl (sweepStep now ttl l k') k =
      (if k = k' then false else isExpired now ttl l k) := by
  have hla := (sweepStep_get now ttl l k' k).1
  by_cases hk : k = k'
  · rw [if_pos hk]
    cases hexp : isExpired now ttl l k with
    | true =>
      rw [if_pos ⟨hk, hexp⟩] at hla
      exact isExpired_of_mapGet_none hla
    | false =>
      subst hk
      rw [sweepStep_of_not_expired hexp]
      exact hexp
  · rw [if_neg hk]
    rw [if_neg (fun h => hk h.1)] at hla
    unfold isExpired
    rw [hla]

/-- The bindings of a key after the expiry loop has visited the keys `ks`. -/
theorem foldl_sweepStep_get (now ttl : Int) (ks : List String) (l : Limiter)
    (k : String) :
    mapGet (ks.foldl (sweepStep now ttl) l).lastAccess k =
        (if k ∈ ks ∧ isExpired now ttl l k = true then none
         else mapGet l.lastAccess k) ∧
      mapGet (ks.foldl (sweepStep now ttl) l).counts k =
        (if k ∈ ks ∧ isExpired now ttl l k = true then none
         else mapGet l.counts k) := by
  induction ks generalizing l with
  | nil => simp
  | cons k' ks ih =>
    rw [List.foldl_cons]
    obtain ⟨h1, h2⟩ := ih (sweepStep now ttl l k')
    obtain ⟨s1, s2⟩ := sweepStep_get now ttl l k' k
    rw [h1, h2, sweepStep_isExpired, s1, s2]
    by_cases hk : k = k'
    · subst hk
      cases hexp : isExpired now ttl l k <;> simp
    · cases hexp : isExpired now ttl l k <;> simp [hk]

/-- The value of `lastAccess[k]` after the expiry loop: an expired key is gone,
every other key keeps its binding. -/
theorem sweep_lastAccess (now ttl : Int) (l : Limiter) (k : String) :
    mapGet (sweep now ttl l).lastAccess k =
      (if isExpired now ttl l k = true then none else mapGet l.lastAccess k) := by
  unfold sweep
  rw [(foldl_sweepStep_get now ttl _ l k).1]
  cases hexp : isExpired now ttl l k with
  | false => simp
  | true =>
    have hmem : k ∈ mapKeys l.lastAccess := by
      cases hg : mapGet l.lastAccess k with
      | none => rw [isExpired_of_mapGet_none hg] at hexp; exact absurd hexp (by decide)
      | some v => exact mem_mapKeys_of_mapGet hg
    simp [hmem]

/-- The value of `counts[k]` after the expiry loop: the count of an expired key
is gone, every other key keeps its count (or its absence). -/
theorem sweep_counts (now ttl : Int) (l : Limiter) (k : String) :
    mapGet (sweep now ttl l).counts k =
      (if isExpired now ttl l k = true then none else mapGet l.counts k) := by
  unfold sweep
  rw [(foldl_sweepStep_get now ttl _ l k).2]
  cases hexp : isExpired now ttl l k with
  | false => simp
  | true =>
    have hmem : k ∈ mapKeys l.lastAccess := by
      cases hg : mapGet l.lastAccess k with
      | none => rw [isExpired_of_mapGet_none hg] at hexp; exact absurd hexp (by decide)
      | some v => exact mem_mapKeys_of_mapGet hg
    simp [hmem]

/-! ## The three outcomes of `shouldLimit` -/

theorem shouldLimit_of_ge {l : Limiter} {now : Int} {url : String} {threshold ttl c : Int}
    (hc : mapGet (sweep now ttl l).counts url = some c) (hge : c ≥ threshold) :
    shouldLimit l now url threshold ttl = (true, sweep now ttl l) := by
  simp only [shouldLimit, hc]
  rw [if_pos hge]

theorem shouldLimit_of_lt {l : Limiter} {now : Int} {url : String} {threshold ttl c : Int}
    (hc : mapGet (sweep now ttl l).counts url = some c) (hlt : c < threshold) :
    shouldLimit l now url threshold ttl =
      (false, { lastAccess := mapSet (sweep now ttl l).lastAccess url now,
                counts := mapSet (sweep now ttl l).counts url (c + 1) }) := by
  simp only [shouldLimit, hc]
  rw [if_neg (not_le.mpr hlt)]

theorem shouldLimit_of_none {l : Limiter} {now : Int} {url : String} {threshold ttl : Int}
    (hc : mapGet (sweep now ttl l).counts url = none) :
    shouldLimit l now url threshold ttl =
      (false, { lastAccess := mapSet (sweep now ttl l).lastAccess url now,
                counts := mapSet (sweep now ttl l).counts url (0 + 1) }) := by
  simp only [shouldLimit, hc]

/-- A call for `url` leaves every other key as the expiry loop left it. -/
theorem shouldLimit_frame (l : Limiter) (now : Int) (url : String) (threshold ttl : Int)
    {k : String} (hk : k ≠ url) :
    mapGet (shouldLimit l now url threshold ttl).2.lastAccess k =
        mapGet (sweep now ttl l).lastAccess k ∧
      mapGet (shouldLimit l now url threshold ttl).2.counts k =
        mapGet (sweep now ttl l).counts k := by
  cases hc : mapGet (sweep now ttl l).counts url with
  | none =>
    rw [shouldLimit_of_none hc]
    exact ⟨mapGet_mapSet_ne _ _ hk, mapGet_mapSet_ne _ _ hk⟩
  | some c =>
    by_cases hge : c ≥ threshold
    · rw [shouldLimit_of_ge hc hge]
      exact ⟨rfl, rfl⟩
    · rw [shouldLimit_of_lt hc (not_le.mp hge)]
      exact ⟨mapGet_mapSet_ne _ _ hk, mapGet_mapSet_ne _ _ hk⟩

/-- Deleting every key a map starts with leaves no binding. -/
theorem foldl_mapDelete_eq_nil (ks : List String) (m : GoMap)
    (h : ∀ p ∈ m, p.1 ∈ ks) : ks.foldl mapDelete m = [] := by
  induction ks generalizing m with
  | nil =>
    cases m with
    | nil => rfl
    | cons p rest => exact absurd (h p (List.mem_cons_self _ _)) (List.not_mem_nil _)
  | cons k ks ih =>
    rw [List.foldl_cons]
    apply ih
    intro p hp
    have hp' : p ∈ m ∧ p.1 ≠ k := by
      simpa [mapDelete, List.mem_filter] using hp
    rcases List.mem_cons.mp (h p hp'.1) with h1 | h1
    · exact absurd h1 hp'.2
    · exact h1

theorem tick_counts (l : Limiter) : (tick l).counts = [] := by
  unfold tick
  apply foldl_mapDelete_eq_nil
  intro p hp
  exact List.mem_map_of_mem Prod.fst hp

/-- A key that is not expired keeps both bindings through the expiry loop. -/
theorem sweep_of_fresh {l : Limiter} {now ttl t0 : Int} {k : String}
    (hla : mapGet l.lastAccess k = some t0) (hfresh : now - t0 ≤ ttl) :
    mapGet (sweep now ttl l).lastAccess k = some t0 ∧
      mapGet (sweep now ttl l).counts k = mapGet l.counts k := by
  have hexp : isExpired now ttl l k = false := by
    rw [isExpired_of_mapGet hla]
    exact decide_eq_false (since_not_gt_of_le hfresh)
  rw [sweep_lastAccess, sweep_counts, hexp]
  exact ⟨by simpa using hla, by simp⟩

/-- A key without a count has none after the expiry loop either. -/
theorem sweep_counts_of_none {l : Limiter} (now ttl : Int) {k : String}
    (hc : mapGet l.counts k = none) : mapGet (sweep now ttl l).counts k = none := by
  rw [sweep_counts]
  cases isExpired now ttl l k <;> simp [hc]

/-- A report of a URL that has no count is accepted with count 1. -/
theorem shouldLimit_untracked (l : Limiter) (now : Int) (url : String) (threshold ttl : Int)
    (hc : mapGet l.counts url = none) :
    (shouldLimit l now url threshold ttl).1 = false ∧
      mapGet (shouldLimit l now url threshold ttl).2.lastAccess url = some now ∧
      mapGet (shouldLimit l now url threshold ttl).2.counts url = some 1 := by
  rw [shouldLimit_of_none (sweep_counts_of_none now ttl hc)]
  exact ⟨rfl, mapGet_mapSet_self _ _ _, by simp [mapGet_mapSet_self]⟩

/-- A report of a fresh URL whose count is below the threshold is accepted. -/
theorem shouldLimit_fresh_lt {l : Limiter} {now t0 c threshold ttl : Int} {url : String}
    (hla : mapGet l.lastAccess url = some t0) (hfresh : now - t0 ≤ ttl)
    (hc : mapGet l.counts url = some c) (hlt : c < threshold) :
    (shouldLimit l now url threshold ttl).1 = false ∧
      mapGet (shouldLimit l now url threshold ttl).2.lastAccess url = some now ∧
      mapGet (shouldLimit l now url threshold ttl).2.counts url = some (c + 1) := by
  have hs : mapGet (sweep now ttl l).counts url = some c := by
    rw [(sweep_of_fresh hla hfresh).2, hc]
  rw [shouldLimit_of_lt hs hlt]
  exact ⟨rfl, mapGet_mapSet_self _ _ _, mapGet_mapSet_self _ _ _⟩

/-- A report of a fresh URL whose count has reached the threshold is refused and
changes neither binding of the URL. -/
theorem shouldLimit_fresh_ge {l : Limiter} {now t0 c threshold ttl : Int} {url : String}
    (hla : mapGet l.lastAccess url = some t0) (hfresh : now - t0 ≤ ttl)
    (hc : mapGet l.counts url = some c) (hge : c ≥ threshold) :
    (shouldLimit l now url threshold ttl).1 = true ∧
      mapGet (shouldLimit l now url threshold ttl).2.lastAccess url = some t0 ∧
      mapGet (shouldLimit l now url threshold ttl).2.counts url = some c := by
  have hs : mapGet (sweep now ttl l).counts url = some c := by
    rw [(sweep_of_fresh hla hfresh).2, hc]
  rw [shouldLimit_of_ge hs hge]
  exact ⟨rfl, (sweep_of_fresh hla hfresh).1, hs⟩

theorem mapGetD_of_mapGet {m : GoMap} {k : String} {v : Int} (h : mapGet m k = some v) :
    mapGetD m k = v := by
  simp [mapGetD, h]

theorem exec_append (T ttl : Int) (l : Limiter) (es fs : List Event) :
    exec T ttl l (es ++ fs) = exec T ttl (exec T ttl l es) fs := by
  simp [exec, List.foldl_append]

theorem exec_cons (T ttl : Int) (l : Limiter) (e : Event) (es : List Event) :
    exec T ttl l (e :: es) = exec T ttl (step T ttl l e) es := rfl

/-- Events that are not reports of `id` do not create a count for `id`. -/
theorem exec_counts_none (T ttl : Int) (id : String) (es : List Event) :
    ∀ l : Limiter, mapGet l.counts id = none →
      (∀ e ∈ es, ∀ (u : String) (t : Int), e = Event.call u t → u ≠ id) →
      mapGet (exec T ttl l es).counts id = none := by
  induction es with
  | nil => intro l hl _; exact hl
  | cons e es ih =>
    intro l hl hes
    rw [exec_cons]
    apply ih _ _ (fun e' he' => hes e' (List.mem_cons_of_mem _ he'))
    cases e with
    | reset t =>
      simp only [step, tick_counts]
      rfl
    | call u t =>
      have hu : id ≠ u := fun h => hes _ (List.mem_cons_self _ _) u t rfl h.symm
      simp only [step]
      rw [(shouldLimit_frame l t u T ttl hu).2]
      exact sweep_counts_of_none t ttl hl

/-! ## Single calls -/

/-- C2: `shouldLimit(id, threshold, ttl)` returns `true` exactly when, after the
expiry loop, `id` is present in `counts` with `counts[id] >= threshold`; and
when it returns `true` the limiter it leaves is exactly the swept limiter. -/
theorem shouldLimit_true_iff (l : Limiter) (now : Int) (id : String) (threshold ttl : Int) :
    ((shouldLimit l now id threshold ttl).1 = true ↔
        ∃ c, mapGet (sweep now ttl l).counts id = some c ∧ c ≥ threshold) ∧
      ((shouldLimit l now id threshold ttl).1 = true →
        (shouldLimit l now id threshold ttl).2 = sweep now ttl l) := by
  cases hc : mapGet (sweep now ttl l).counts id with
  | none =>
    rw [shouldLimit_of_none hc]
    simp
  | some c =>
    by_cases hge : c ≥ threshold
    · rw [shouldLimit_of_ge hc hge]
      exact ⟨⟨fun _ => ⟨c, rfl, hge⟩, fun _ => rfl⟩, fun _ => rfl⟩
    · rw [shouldLimit_of_lt hc (not_le.mp hge)]
      refine ⟨⟨fun h => absurd h (by simp), ?_⟩, fun h => absurd h (by simp)⟩
      rintro ⟨c', hc', hge'⟩
      exact absurd (Option.some.inj hc' ▸ hge') hge

/-- C3: whenever `shouldLimit(id, threshold, ttl)` returns `false`, it leaves
`lastAccess[id] = now` and `counts[id] = c + 1`, where `c` is `counts[id]` after
the expiry loop, read as `0` when `id` is absent. -/
theorem shouldLimit_false_records (l : Limiter) (now : Int) (id : String)
    (threshold ttl : Int) (h : (shouldLimit l now id threshold ttl).1 = false) :
    mapGet (shouldLimit l now id threshold ttl).2.lastAccess id = some now ∧
      mapGet (shouldLimit l now id threshold ttl).2.counts id =
        some (mapGetD (sweep now ttl l).counts id + 1) := by
  cases hc : mapGet (sweep now ttl l).counts id with
  | none =>
    rw [shouldLimit_of_none hc]
    exact ⟨mapGet_mapSet_self _ _ _, by simp [mapGetD, hc, mapGet_mapSet_self]⟩
  | some c =>
    by_cases hge : c ≥ threshold
    · rw [shouldLimit_of_ge hc hge] at h
      exact absurd h (by simp)
    · rw [shouldLimit_of_lt hc (not_le.mp hge)]
      exact ⟨mapGet_mapSet_self _ _ _, by simp [mapGetD, hc, mapGet_mapSet_self]⟩

/-- Witness of C3: the first report of "a" on the empty limiter is accepted. -/
theorem shouldLimit_false_records_witness :
    mapGet (shouldLimit Limiter.empty 5 "a" 2 10).2.lastAccess "a" = some 5 ∧
      mapGet (shouldLimit Limiter.empty 5 "a" 2 10).2.counts "a" =
        some (mapGetD (sweep 5 10 Limiter.empty).counts "a" + 1) :=
  shouldLimit_false_records Limiter.empty 5 "a" 2 10 (by decide)

/-- What a call for `url` does to the `lastAccess` and `counts` bindings of
another key, in terms of the test `time.Since(v) > ttl` of line 35. -/
theorem shouldLimit_other_key (l : Limiter) (now : Int) (url : String)
    (threshold ttl : Int) (k : String) (hk : k ≠ url) :
    ((mapGet (shouldLimit l now url threshold ttl).2.lastAccess k).isSome = true ↔
        ∃ v, mapGet l.lastAccess k = some v ∧ ¬ since now v > toDuration ttl) ∧
      (∀ v, mapGet l.lastAccess k = some v → since now v > toDuration ttl →
        mapGet (shouldLimit l now url threshold ttl).2.lastAccess k = none ∧
          mapGet (shouldLimit l now url threshold ttl).2.counts k = none) := by
  obtain ⟨f1, f2⟩ := shouldLimit_frame l now url threshold ttl hk
  rw [f1, f2, sweep_lastAccess, sweep_counts]
  constructor
  · cases hg : mapGet l.lastAccess k with
    | none => simp [isExpired_of_mapGet_none hg]
    | some v =>
      rw [isExpired_of_mapGet hg]
      by_cases hv : since now v > toDuration ttl
      · have hd : decide (since now v > toDuration ttl) = true := decide_eq_true hv
        rw [hd, if_pos rfl]
        constructor
        · intro h
          exact absurd h (by simp)
        · rintro ⟨w, hw, hle⟩
          have hwv : v = w := Option.some.inj hw
          subst hwv
          exact absurd hv hle
      · have hd : decide (since now v > toDuration ttl) = false := decide_eq_false hv
        rw [hd, if_neg (by simp)]
        constructor
        · intro _
          exact ⟨v, rfl, hv⟩
        · intro _
          rfl
  · intro v hg hv
    rw [isExpired_of_mapGet hg]
    simp [hv]

/-- C4: for a key `k` other than the reported `id`, after the call `k` is
present in `lastAccess` exactly when it was present before with
`now - lastAccess[k] <= ttl` (an age of exactly `ttl` is kept); and a key that
was present with `now - lastAccess[k] > ttl` is absent from both maps.  The
difference is the `time.Duration` that `time.Since` returns, for every TTL
(first half); for every TTL below the largest `Duration` it is the exact
difference of the two instants (second half). -/
theorem shouldLimit_sweeps_others (l : Limiter) (now : Int) (id : String)
    (threshold ttl : Int) (k : String) (hk : k ≠ id) :
    (((mapGet (shouldLimit l now id threshold ttl).2.lastAccess k).isSome = true ↔
        ∃ v, mapGet l.lastAccess k = some v ∧ since now v ≤ toDuration ttl) ∧
      (∀ v, mapGet l.lastAccess k = some v → since now v > toDuration ttl →
        mapGet (shouldLimit l now id threshold ttl).2.lastAccess k = none ∧
          mapGet (shouldLimit l now id threshold ttl).2.counts k = none)) ∧
    (minDuration ≤ ttl → ttl < maxDuration →
      ((mapGet (shouldLimit l now id threshold ttl).2.lastAccess k).isSome = true ↔
        ∃ v, mapGet l.lastAccess k = some v ∧ now - v ≤ ttl) ∧
      (∀ v, mapGet l.lastAccess k = some v → now - v > ttl →
        mapGet (shouldLimit l now id threshold ttl).2.lastAccess k = none ∧
          mapGet (shouldLimit l now id threshold ttl).2.counts k = none)) := by
  obtain ⟨h1, h2⟩ := shouldLimit_other_key l now id threshold ttl k hk
  refine ⟨⟨?_, h2⟩, ?_⟩
  · rw [h1]
    constructor
    · rintro ⟨v, hv, hle⟩
      exact ⟨v, hv, not_lt.mp hle⟩
    · rintro ⟨v, hv, hle⟩
      exact ⟨v, hv, not_lt.mpr hle⟩
  · intro hlo hhi
    refine ⟨?_, ?_⟩
    · rw [h1]
      constructor
      · rintro ⟨v, hv, hle⟩
        exact ⟨v, hv, not_lt.mp (fun h => hle ((since_gt_iff hlo hhi).mpr h))⟩
      · rintro ⟨v, hv, hle⟩
        exact ⟨v, hv, fun h => absurd ((since_gt_iff hlo hhi).mp h) (not_lt.mpr hle)⟩
    · intro v hv hgt
      exact h2 v hv ((since_gt_iff hlo hhi).mpr hgt)

/-- Witness of C4: reporting "a" at time 20 with a TTL of 10 keeps "b" (age 10)
and drops "c" (age 11); and with the largest TTL, `1<<63 - 1` nanoseconds, an
entry "b" that is 300 years old is kept, since `time.Since` saturates. -/
theorem shouldLimit_sweeps_others_witness :
    (((mapGet (shouldLimit (Limiter.mk [("b", 10), ("c", 9)]
          [("b", 1), ("c", 1)]) 20 "a" 2 10).2.lastAccess "b").isSome = true ↔
        ∃ v, mapGet [("b", 10), ("c", 9)] "b" = some v ∧ 20 - v ≤ 10) ∧
      (∀ v, mapGet [("b", 10), ("c", 9)] "b" = some v → 20 - v > 10 →
        mapGet (shouldLimit (Limiter.mk [("b", 10), ("c", 9)]
          [("b", 1), ("c", 1)]) 20 "a" 2 10).2.lastAccess "b" = none ∧
          mapGet (shouldLimit (Limiter.mk [("b", 10), ("c", 9)]
            [("b", 1), ("c", 1)]) 20 "a" 2 10).2.counts "b" = none)) ∧
    (mapGet (shouldLimit (Limiter.mk [("b", 10), ("c", 9)]
      [("b", 1), ("c", 1)]) 20 "a" 2 10).2.lastAccess "c" = none ∧
    mapGet (shouldLimit (Limiter.mk [("b", 10), ("c", 9)]
      [("b", 1), ("c", 1)]) 20 "a" 2 10).2.counts "c" = none) ∧
    (mapGet (shouldLimit (Limiter.mk [("b", 0)] [("b", 1)])
      9460800000000000000 "a" 2 9223372036854775807).2.lastAccess "b").isSome = true :=
  ⟨(shouldLimit_sweeps_others (Limiter.mk [("b", 10), ("c", 9)]
      [("b", 1), ("c", 1)]) 20 "a" 2 10 "b" (by decide)).2 (by decide) (by decide),
   ((shouldLimit_sweeps_others (Limiter.mk [("b", 10), ("c", 9)]
      [("b", 1), ("c", 1)]) 20 "a" 2 10 "c" (by decide)).2 (by decide) (by decide)).2
      9 rfl (by decide),
   (shouldLimit_sweeps_others (Limiter.mk [("b", 0)] [("b", 1)])
      9460800000000000000 "a" 2 9223372036854775807 "b" (by decide)).1.1.mpr
      ⟨0, rfl, by decide⟩⟩

/-- C5: a firing of the ticker empties `counts` and leaves `lastAccess` as it
was; and the first `shouldLimit(id, threshold, ttl)` call after it returns
`false` and leaves `counts[id] = 1`, for every identifier, threshold, TTL and
time: both when it is the very next operation and when reports of other
identifiers and further firings of the ticker come in between. -/
theorem tick_then_shouldLimit (l : Limiter) :
    (tick l).counts = [] ∧ (tick l).lastAccess = l.lastAccess ∧
      (∀ (id : String) (threshold ttl now : Int),
        (shouldLimit (tick l) now id threshold ttl).1 = false ∧
          mapGet (shouldLimit (tick l) now id threshold ttl).2.counts id = some 1) ∧
      (∀ (id : String) (threshold ttl now : Int) (es : List Event),
        (∀ e ∈ es, ∀ (u : String) (t : Int), e = Event.call u t → u ≠ id) →
        (shouldLimit (exec threshold ttl (tick l) es) now id threshold ttl).1 = false ∧
          mapGet (shouldLimit (exec threshold ttl (tick l) es) now id threshold ttl).2.counts
            id = some 1) := by
  have h0 : ∀ id : String, mapGet (tick l).counts id = none := by
    intro id
    rw [tick_counts]
    rfl
  refine ⟨tick_counts l, rfl, ?_, ?_⟩
  · intro id threshold ttl now
    obtain ⟨r1, _, r3⟩ := shouldLimit_untracked (tick l) now id threshold ttl (h0 id)
    exact ⟨r1, r3⟩
  · intro id threshold ttl now es hes
    obtain ⟨r1, _, r3⟩ := shouldLimit_untracked _ now id threshold ttl
      (exec_counts_none threshold ttl id es (tick l) (h0 id) hes)
    exact ⟨r1, r3⟩

/-- C6: if `id` is tracked with `now - lastAccess[id] > ttl` when
`shouldLimit(id, threshold, ttl)` is called, the call returns `false` and leaves
`counts[id] = 1` and `lastAccess[id] = now`, whatever the previous count.  The
difference is the `time.Duration` that `time.Since` returns, for every TTL
(first half); for every TTL below the largest `Duration` it is the exact
difference of the two instants (second half). -/
theorem shouldLimit_expired_fresh (l : Limiter) (now : Int) (id : String)
    (threshold ttl v : Int) (hv : mapGet l.lastAccess id = some v) :
    (since now v > toDuration ttl →
      (shouldLimit l now id threshold ttl).1 = false ∧
        mapGet (shouldLimit l now id threshold ttl).2.counts id = some 1 ∧
        mapGet (shouldLimit l now id threshold ttl).2.lastAccess id = some now) ∧
    (minDuration ≤ ttl → ttl < maxDuration → now - v > ttl →
      (shouldLimit l now id threshold ttl).1 = false ∧
        mapGet (shouldLimit l now id threshold ttl).2.counts id = some 1 ∧
        mapGet (shouldLimit l now id threshold ttl).2.lastAccess id = some now) := by
  have key : since now v > toDuration ttl →
      (shouldLimit l now id threshold ttl).1 = false ∧
        mapGet (shouldLimit l now id threshold ttl).2.counts id = some 1 ∧
        mapGet (shouldLimit l now id threshold ttl).2.lastAccess id = some now := by
    intro hexp
    have hc : mapGet (sweep now ttl l).counts id = none := by
      rw [sweep_counts, isExpired_of_mapGet hv]
      simp [hexp]
    rw [shouldLimit_of_none hc]
    exact ⟨rfl, by simp [mapGet_mapSet_self], mapGet_mapSet_self _ _ _⟩
  exact ⟨key, fun hlo hhi hgt => key ((since_gt_iff hlo hhi).mpr hgt)⟩

/-- Witness of C6, the scenario of the specification: threshold 2, TTL 1s
(times in nanoseconds); "a" is reported at time 0 and again 2s later: the second
report returns `false` with a count of 1. -/
theorem shouldLimit_expired_fresh_witness :
    (shouldLimit (shouldLimit Limiter.empty 0 "a" 2 1000000000).2
        2000000000 "a" 2 1000000000).1 = false ∧
      mapGet (shouldLimit (shouldLimit Limiter.empty 0 "a" 2 1000000000).2
        2000000000 "a" 2 1000000000).2.counts "a" = some 1 ∧
      mapGet (shouldLimit (shouldLimit Limiter.empty 0 "a" 2 1000000000).2
        2000000000 "a" 2 1000000000).2.lastAccess "a" = some 2000000000 :=
  (shouldLimit_expired_fresh (shouldLimit Limiter.empty 0 "a" 2 1000000000).2
    2000000000 "a" 2 1000000000 0 rfl).2 (by decide) (by decide) (by decide)

/-- C7: the `blocked` field computed by the `/report` handler is `true` exactly
when `counts[url]`, read as `0` when absent, is `>= threshold` in the limiter
left by the handler's `shouldLimit` call, which is also the limiter the handler
leaves. -/
theorem report_blocked_iff (l : Limiter) (now : Int) (url : String) (threshold ttl : Int) :
    ((report l now url threshold ttl).1 = true ↔
        mapGetD (shouldLimit l now url threshold ttl).2.counts url ≥ threshold) ∧
      (report l now url threshold ttl).2 = (shouldLimit l now url threshold ttl).2 := by
  simp [report]

/-! ## The handler on the four-report scenario -/

/-- Counterexample to C8 as stated: with threshold 3 and TTL 10s (nanoseconds),
four reports of "a" one nanosecond apart, served from the empty limiter, do not
produce the responses false, false, false, true. -/
theorem runReports_four_ne :
    runReports 3 10000000000 Limiter.empty [("a", 0), ("a", 1), ("a", 2), ("a", 3)] ≠
      [false, false, false, true] := by
  decide

/-- C8, amended: with threshold 3 and TTL 10s, four reports of "a", each made at
most 10s after the one before it, served from the empty limiter with no ticker
firing in between, produce the `blocked` responses false, false, true, true: the
third report brings `counts["a"]` to the threshold and the handler compares the
count it reads after `shouldLimit` has run. -/
theorem runReports_four (t1 t2 t3 t4 : Int) (h12 : t2 - t1 ≤ 10000000000)
    (h23 : t3 - t2 ≤ 10000000000) (h34 : t4 - t3 ≤ 10000000000) :
    runReports 3 10000000000 Limiter.empty [("a", t1), ("a", t2), ("a", t3), ("a", t4)] =
      [false, false, true, true] := by
  have h1 := shouldLimit_untracked Limiter.empty t1 "a" 3 10000000000 rfl
  have h2 := shouldLimit_fresh_lt h1.2.1 h12 h1.2.2 (show (1 : Int) < 3 by decide)
  have h3 := shouldLimit_fresh_lt h2.2.1 h23 h2.2.2 (show (1 + 1 : Int) < 3 by decide)
  have h4 := shouldLimit_fresh_ge h3.2.1 h34 h3.2.2 (show (1 + 1 + 1 : Int) ≥ 3 by decide)
  simp only [runReports, report, mapGetD_of_mapGet h1.2.2, mapGetD_of_mapGet h2.2.2,
    mapGetD_of_mapGet h3.2.2, mapGetD_of_mapGet h4.2.2]
  decide

/-- Witness of the amended C8: the four reports one nanosecond apart. -/
theorem runReports_four_witness :
    runReports 3 10000000000 Limiter.empty [("a", 0), ("a", 1), ("a", 2), ("a", 3)] =
      [false, false, true, true] :=
  runReports_four 0 1 2 3 (by decide) (by decide) (by decide)

/-! ## A run of calls on one identifier -/

theorem runCalls_length (id : String) (T ttl : Int) (l : Limiter) (ts : List Int) :
    (runCalls id T ttl l ts).length = ts.length := by
  induction ts generalizing l with
  | nil => rfl
  | cons t ts ih => simp [runCalls, ih]

/-- A run that starts with `id` tracked at count `c0 ≤ T`: call number `n + 1`
of the run is accepted while `c0 + n + 1 ≤ T` and refused afterwards. -/
theorem runCalls_tracked (id : String) (T ttl : Int) (ts : List Int) :
    ∀ (l : Limiter) (t0 c0 : Int), mapGet l.lastAccess id = some t0 →
      mapGet l.counts id = some c0 → c0 ≤ T →
      withinTtl ttl (some t0) (runCalls id T ttl l ts) = true →
      ∀ (n : Nat) (c : CallRecord), (runCalls id T ttl l ts)[n]? = some c →
        (c0 + (n : Int) + 1 ≤ T →
          c.limited = false ∧ mapGet c.after.counts id = some (c0 + (n : Int) + 1)) ∧
        (T < c0 + (n : Int) + 1 →
          c.limited = true ∧ mapGet c.after.counts id = some T) := by
  induction ts with
  | nil =>
    intro l t0 c0 _ _ _ _ n c hn
    simp [runCalls] at hn
  | cons t ts ih =>
    intro l t0 c0 hla hc hle hw n c hn
    simp only [runCalls, withinTtl, Bool.and_eq_true, decide_eq_true_eq] at hw hn
    obtain ⟨hfresh, hw⟩ := hw
    by_cases hlt : c0 < T
    · obtain ⟨r1, r2, r3⟩ := shouldLimit_fresh_lt hla hfresh hc hlt
      rw [r1] at hw
      cases n with
      | zero =>
        simp only [List.getElem?_cons_zero, Option.some.injEq] at hn
        subst hn
        simp only [Nat.cast_zero, add_zero]
        exact ⟨fun _ => ⟨r1, r3⟩, fun h => absurd h (by omega)⟩
      | succ m =>
        simp only [List.getElem?_cons_succ] at hn
        have key := ih _ t (c0 + 1) r2 r3 (by omega) (by simpa using hw) m c hn
        have e : c0 + ((m + 1 : Nat) : Int) + 1 = c0 + 1 + (m : Int) + 1 := by
          push_cast; ring
        rw [e]
        exact key
    · have hge : c0 ≥ T := not_lt.mp hlt
      have hc0 : c0 = T := le_antisymm hle hge
      obtain ⟨r1, r2, r3⟩ := shouldLimit_fresh_ge hla hfresh hc hge
      rw [r1] at hw
      cases n with
      | zero =>
        simp only [List.getElem?_cons_zero, Option.some.injEq] at hn
        subst hn
        simp only [Nat.cast_zero, add_zero]
        exact ⟨fun h => absurd h (by omega), fun _ => ⟨r1, by rw [r3, hc0]⟩⟩
      | succ m =>
        simp only [List.getElem?_cons_succ] at hn
        have key := ih _ t0 c0 r2 r3 hle (by simpa using hw) m c hn
        have hm : (0 : Int) ≤ (m : Int) := Int.natCast_nonneg m
        refine ⟨fun h => absurd h (by push_cast; omega), fun _ => key.2 (by omega)⟩

/-- C1: for a threshold `T >= 1`, in a run of consecutive
`shouldLimit(id, T, ttl)` calls from the empty limiter, with no ticker firing in
between and every call made at most `ttl` after the previous accepted call, every
call returns; calls number 1..T return `false` and leave `counts[id]` equal to the
call number; every later call returns `true` and leaves `counts[id] = T`. -/
theorem runCalls_first_T (T ttl : Int) (id : String) (ts : List Int) (hT : 1 ≤ T)
    (hw : withinTtl ttl none (runCalls id T ttl Limiter.empty ts) = true) :
    (runCalls id T ttl Limiter.empty ts).length = ts.length ∧
      ∀ (n : Nat) (c : CallRecord), (runCalls id T ttl Limiter.empty ts)[n]? = some c →
        ((n : Int) + 1 ≤ T →
          c.limited = false ∧ mapGet c.after.counts id = some ((n : Int) + 1)) ∧
        (T < (n : Int) + 1 →
          c.limited = true ∧ mapGet c.after.counts id = some T) := by
  refine ⟨runCalls_length id T ttl _ ts, ?_⟩
  intro n c hn
  cases ts with
  | nil => simp [runCalls] at hn
  | cons t ts =>
    simp only [runCalls, withinTtl] at hw hn
    obtain ⟨r1, r2, r3⟩ :=
      shouldLimit_untracked Limiter.empty t id T ttl rfl
    rw [r1] at hw
    cases n with
    | zero =>
      simp only [List.getElem?_cons_zero, Option.some.injEq] at hn
      subst hn
      simp only [Nat.cast_zero, zero_add]
      exact ⟨fun _ => ⟨r1, r3⟩, fun h => absurd h (by omega)⟩
    | succ m =>
      simp only [List.getElem?_cons_succ] at hn
      have key := runCalls_tracked id T ttl ts _ t 1 r2 r3 hT (by simpa using hw) m c hn
      have e : ((m + 1 : Nat) : Int) + 1 = 1 + (m : Int) + 1 := by
        push_cast; ring
      rw [e]
      exact key

/-- Witness of C1: threshold 3, TTL 10, five reports of "a" at times 0..4. -/
theorem runCalls_first_T_witness :
    (runCalls "a" 3 10 Limiter.empty [0, 1, 2, 3, 4]).length = 5 ∧
      ∀ (n : Nat) (c : CallRecord),
        (runCalls "a" 3 10 Limiter.empty [0, 1, 2, 3, 4])[n]? = some c →
        ((n : Int) + 1 ≤ 3 →
          c.limited = false ∧ mapGet c.after.counts "a" = some ((n : Int) + 1)) ∧
        ((3 : Int) < (n : Int) + 1 →
          c.limited = true ∧ mapGet c.after.counts "a" = some 3) :=
  runCalls_first_T 3 10 "a" [0, 1, 2, 3, 4] (by decide) (by decide)

/-! ## Reachable limiters -/

/-- A count that survives the expiry loop was there before it. -/
theorem sweep_counts_some {l : Limiter} {now ttl v : Int} {k : String}
    (h : mapGet (sweep now ttl l).counts k = some v) : mapGet l.counts k = some v := by
  rw [sweep_counts] at h
  cases hexp : isExpired now ttl l k with
  | true => rw [hexp] at h; simp at h
  | false => rw [hexp] at h; simpa using h

/-- One event keeps every count between 1 and the threshold. -/
theorem step_counts_bounded (T ttl : Int) (hT : 1 ≤ T) (l : Limiter) (e : Event)
    (hl : ∀ k v, mapGet l.counts k = some v → 1 ≤ v ∧ v ≤ T) :
    ∀ k v, mapGet (step T ttl l e).counts k = some v → 1 ≤ v ∧ v ≤ T := by
  intro k v hv
  cases e with
  | reset t =>
    simp only [step, tick_counts, mapGet] at hv
    exact absurd hv (by simp)
  | call url now =>
    simp only [step] at hv
    by_cases hk : k = url
    · subst hk
      cases hc : mapGet (sweep now ttl l).counts k with
      | none =>
        rw [shouldLimit_of_none hc] at hv
        simp only [mapGet_mapSet_self, Option.some.injEq] at hv
        omega
      | some c =>
        have hb := hl k c (sweep_counts_some hc)
        by_cases hge : c ≥ T
        · rw [shouldLimit_of_ge hc hge] at hv
          exact hl k v (sweep_counts_some hv)
        · rw [shouldLimit_of_lt hc (not_le.mp hge)] at hv
          simp only [mapGet_mapSet_self, Option.some.injEq] at hv
          omega
    · rw [(shouldLimit_frame l now url T ttl hk).2] at hv
      exact hl k v (sweep_counts_some hv)

theorem exec_counts_bounded_from (T ttl : Int) (hT : 1 ≤ T) (es : List Event) :
    ∀ l : Limiter, (∀ k v, mapGet l.counts k = some v → 1 ≤ v ∧ v ≤ T) →
      ∀ k v, mapGet (exec T ttl l es).counts k = some v → 1 ≤ v ∧ v ≤ T := by
  induction es with
  | nil => intro l hl; exact hl
  | cons e es ih =>
    intro l hl
    rw [exec_cons]
    exact ih _ (step_counts_bounded T ttl hT l e hl)

/-- C10: for a fixed threshold `T >= 1` and TTL, in every limiter reached from
the empty one by any sequence of `shouldLimit(_, T, ttl)` calls (any
identifiers, at any times, so in particular at non-decreasing times) and ticker
firings, every count present has a value between 1 and `T`. -/
theorem exec_counts_bounded (T ttl : Int) (es : List Event) (hT : 1 ≤ T) :
    ∀ (k : String) (v : Int),
      mapGet (exec T ttl Limiter.empty es).counts k = some v → 1 ≤ v ∧ v ≤ T := by
  apply exec_counts_bounded_from T ttl hT es
  intro k v hv
  simp [Limiter.empty, mapGet] at hv

/-- Witness of C10: threshold 2, TTL 10; "a" is reported three times, the ticker
fires, "b" and "a" are reported: the counts reached are `b = 1` and `a = 1`. -/
theorem exec_counts_bounded_witness :
    (∀ (k : String) (v : Int),
      mapGet (exec 2 10 Limiter.empty
        [Event.call "a" 0, Event.call "a" 1, Event.call "a" 2, Event.reset 10,
          Event.call "b" 11, Event.call "a" 12]).counts k = some v →
        1 ≤ v ∧ v ≤ 2) ∧
    (exec 2 10 Limiter.empty
        [Event.call "a" 0, Event.call "a" 1, Event.call "a" 2, Event.reset 10,
          Event.call "b" 11, Event.call "a" 12]).counts = [("a", 1), ("b", 1)] :=
  ⟨exec_counts_bounded 2 10
      [Event.call "a" 0, Event.call "a" 1, Event.call "a" 2, Event.reset 10,
        Event.call "b" 11, Event.call "a" 12] (by decide), by decide⟩

/-! ## Accepted reports inside one window -/

theorem adjacent_iff_chain (r : Int → Int → Bool) (ts : List Int) :
    adjacent r ts = true ↔ List.Chain' (fun a b => r a b = true) ts := by
  induction ts with
  | nil => simp [adjacent]
  | cons a rest ih =>
    cases rest with
    | nil => simp [adjacent]
    | cons b rest =>
      rw [List.chain'_cons, ← ih]
      simp [adjacent]

theorem resetTimes_append (es fs : List Event) :
    resetTimes (es ++ fs) = resetTimes es ++ resetTimes fs := by
  induction es with
  | nil => rfl
  | cons e es ih =>
    cases e with
    | call u now => simpa [resetTimes] using ih
    | reset t => simpa [resetTimes] using ih

theorem resetTimes_of_no_reset (es : List Event) (h : ∀ e ∈ es, e.isReset = false) :
    resetTimes es = [] := by
  induction es with
  | nil => rfl
  | cons e es ih =>
    cases e with
    | call u now =>
      simp only [resetTimes]
      exact ih (fun e' he' => h e' (List.mem_cons_of_mem _ he'))
    | reset t =>
      have := h (Event.reset t) (List.mem_cons_self _ _)
      simp [Event.isReset] at this

/-- Inside a window that starts at `t1`: as long as every event is a call made
between `t1` and `t1 + ttl`, a limiter that holds either no count for `id`, or
the count `a` of reports accepted so far in the window (at most `T`) with a last
access inside the window, accepts at most `T` reports of `id` in total. -/
theorem accepted_window (T ttl : Int) (hT : 1 ≤ T) (id : String) (t1 : Int)
    (es : List Event) :
    ∀ (l : Limiter) (a : Nat),
      ((mapGet l.counts id = none ∧ a = 0) ∨
        (∃ t, mapGet l.lastAccess id = some t ∧ t1 ≤ t ∧
          mapGet l.counts id = some (a : Int) ∧ (a : Int) ≤ T)) →
      (∀ e ∈ es, e.isReset = false ∧ t1 ≤ e.time ∧ e.time - t1 ≤ ttl) →
      ((a + accepted T ttl id l es : Nat) : Int) ≤ T := by
  induction es with
  | nil =>
    intro l a hinv _
    simp only [accepted, add_zero]
    rcases hinv with ⟨_, ha⟩ | ⟨_, _, _, _, hle⟩
    · subst ha
      simpa using (by omega : (0 : Int) ≤ T)
    · exact hle
  | cons e es ih =>
    intro l a hinv hes
    have he := hes e (List.mem_cons_self _ _)
    have hrest : ∀ e' ∈ es, e'.isReset = false ∧ t1 ≤ e'.time ∧ e'.time - t1 ≤ ttl :=
      fun e' h => hes e' (List.mem_cons_of_mem _ h)
    cases e with
    | reset t =>
      have := he.1
      simp [Event.isReset] at this
    | call u now =>
      simp only [Event.time] at he
      obtain ⟨_, hlo, hhi⟩ := he
      simp only [accepted, isAccepted, step]
      by_cases hu : u = id
      · subst hu
        rcases hinv with ⟨hn, ha⟩ | ⟨t, hla, ht, hc, hle⟩
        · obtain ⟨r1, r2, r3⟩ := shouldLimit_untracked l now u T ttl hn
          have key := ih (shouldLimit l now u T ttl).2 1
            (Or.inr ⟨now, r2, hlo, by simpa using r3, by simpa using hT⟩) hrest
          have hacc : (decide (u = u) && !(shouldLimit l now u T ttl).1) = true := by
            simp [r1]
          rw [if_pos hacc]
          subst ha
          push_cast at key ⊢
          omega
        · have hfresh : now - t ≤ ttl := by omega
          by_cases hlt : (a : Int) < T
          · obtain ⟨r1, r2, r3⟩ := shouldLimit_fresh_lt hla hfresh hc hlt
            have key := ih (shouldLimit l now u T ttl).2 (a + 1)
              (Or.inr ⟨now, r2, hlo, by push_cast; exact r3, by push_cast; omega⟩) hrest
            have hacc : (decide (u = u) && !(shouldLimit l now u T ttl).1) = true := by
              simp [r1]
            rw [if_pos hacc]
            push_cast at key ⊢
            omega
          · obtain ⟨r1, r2, r3⟩ := shouldLimit_fresh_ge hla hfresh hc (not_lt.mp hlt)
            have key := ih (shouldLimit l now u T ttl).2 a
              (Or.inr ⟨t, r2, ht, r3, hle⟩) hrest
            have hacc : ¬ (decide (u = u) && !(shouldLimit l now u T ttl).1) = true := by
              simp [r1]
            rw [if_neg hacc]
            push_cast at key ⊢
            omega
      · have hk : id ≠ u := fun h => hu h.symm
        obtain ⟨f1, f2⟩ := shouldLimit_frame l now u T ttl hk
        have hacc : ¬ (decide (u = id) && !(shouldLimit l now u T ttl).1) = true := by
          simp [hu]
        rw [if_neg hacc]
        rcases hinv with ⟨hn, ha⟩ | ⟨t, hla, ht, hc, hle⟩
        · have key := ih (shouldLimit l now u T ttl).2 a
            (Or.inl ⟨by rw [f2]; exact sweep_counts_of_none now ttl hn, ha⟩) hrest
          push_cast at key ⊢
          omega
        · have hfresh : now - t ≤ ttl := by omega
          obtain ⟨s1, s2⟩ := sweep_of_fresh hla hfresh
          have key := ih (shouldLimit l now u T ttl).2 a
            (Or.inr ⟨t, by rw [f1]; exact s1, ht, by rw [f2, s2]; exact hc, hle⟩) hrest
          push_cast at key ⊢
          omega

/-- C9: for a threshold `T >= 1` and a TTL `> 0`, in every run from the empty
limiter in which event times never decrease and the ticker fires exactly every
`ttl`, the number of accepted reports (calls returning `false`) of any one
identifier between two consecutive firings of the ticker is at most `T`.  The
run is `pre`, the firing at `t1`, the calls `mid` of the window, the firing at
`t2`, then `post`. -/
theorem accepted_between_resets (T ttl : Int) (id : String) (pre mid post : List Event)
    (t1 t2 : Int) (hT : 1 ≤ T) (_httl : 0 < ttl)
    (hmono : nonDecreasing (pre ++ Event.reset t1 :: (mid ++ Event.reset t2 :: post)) = true)
    (hevery :
      ticksEvery ttl (pre ++ Event.reset t1 :: (mid ++ Event.reset t2 :: post)) = true)
    (hmid : ∀ e ∈ mid, e.isReset = false) :
    (accepted T ttl id (exec T ttl Limiter.empty (pre ++ [Event.reset t1])) mid : Int) ≤ T := by
  -- the two firings are `ttl` apart
  have hgap : t2 = t1 + ttl := by
    have e1 : resetTimes (pre ++ Event.reset t1 :: (mid ++ Event.reset t2 :: post)) =
        resetTimes pre ++ (t1 :: t2 :: resetTimes post) := by
      simp [resetTimes_append, resetTimes, resetTimes_of_no_reset mid hmid]
    unfold ticksEvery at hevery
    rw [e1] at hevery
    have hc := (adjacent_iff_chain _ _).mp hevery
    simpa using (List.chain'_cons.mp hc.right_of_append).1
  -- every call of the window is made between the two firings
  have hp : List.Pairwise (fun a b : Int => a ≤ b)
      (List.map Event.time (pre ++ Event.reset t1 :: (mid ++ Event.reset t2 :: post))) :=
    List.chain'_iff_pairwise.mp
      (((adjacent_iff_chain _ _).mp hmono).imp (fun _ _ h => of_decide_eq_true h))
  rw [List.map_append] at hp
  have hp2 := (List.pairwise_append.mp hp).2.1
  rw [List.map_cons, List.pairwise_cons, List.map_append] at hp2
  obtain ⟨hlo, hp3⟩ := hp2
  have hhi := (List.pairwise_append.mp hp3).2.2
  have hbounds : ∀ e ∈ mid, e.isReset = false ∧ t1 ≤ e.time ∧ e.time - t1 ≤ ttl := by
    intro e he
    have hmem : e.time ∈ List.map Event.time mid := List.mem_map_of_mem Event.time he
    have h1 : t1 ≤ e.time := hlo e.time (List.mem_append_left _ hmem)
    have h2 : e.time ≤ t2 := hhi e.time hmem t2 (by simp [Event.time])
    exact ⟨hmid e he, h1, by omega⟩
  -- the firing at `t1` leaves no count
  have hstart : mapGet (exec T ttl Limiter.empty (pre ++ [Event.reset t1])).counts id = none := by
    rw [exec_append]
    simp [exec, step, tick_counts, mapGet]
  have key := accepted_window T ttl hT id t1 mid _ 0 (Or.inl ⟨hstart, rfl⟩) hbounds
  simpa using key

/-- Witness of C9: threshold 2, TTL 10; "a" is reported once before the firing
at 10 and three times (and "b" once) before the firing at 20. -/
theorem accepted_between_resets_witness :
    (accepted 2 10 "a" (exec 2 10 Limiter.empty ([Event.call "a" 3] ++ [Event.reset 10]))
      [Event.call "a" 11, Event.call "a" 12, Event.call "a" 13, Event.call "b" 14] : Int) ≤ 2 :=
  accepted_between_resets 2 10 "a" [Event.call "a" 3]
    [Event.call "a" 11, Event.call "a" 12, Event.call "a" 13, Event.call "b" 14] []
    10 20 (by decide) (by decide) (by decide) (by decide) (by decide)

/-! ## The two maps side by side -/

/-- The expiry loop keeps the two maps on the same keys. -/
theorem sweep_same_keys (now ttl : Int) (l : Limiter)
    (h : ∀ k, (mapGet l.lastAccess k).isSome = (mapGet l.counts k).isSome) :
    ∀ k, (mapGet (sweep now ttl l).lastAccess k).isSome =
      (mapGet (sweep now ttl l).counts k).isSome := by
  intro k
  rw [sweep_lastAccess, sweep_counts]
  cases isExpired now ttl l k with
  | true => simp
  | false => simpa using h k

/-- A count that survives the expiry loop comes with its last access. -/
theorem sweep_counts_tracked (now ttl : Int) (l : Limiter)
    (h : ∀ k, (mapGet l.counts k).isSome = true → (mapGet l.lastAccess k).isSome = true) :
    ∀ k, (mapGet (sweep now ttl l).counts k).isSome = true →
      (mapGet (sweep now ttl l).lastAccess k).isSome = true := by
  intro k
  rw [sweep_lastAccess, sweep_counts]
  cases isExpired now ttl l k with
  | true => simp
  | false => simpa using h k

/-- After a call for `url`, `url` is either bound in both maps, or the limiter is
the swept one. -/
theorem shouldLimit_self_cases (l : Limiter) (now : Int) (url : String) (threshold ttl : Int) :
    ((mapGet (shouldLimit l now url threshold ttl).2.lastAccess url).isSome = true ∧
        (mapGet (shouldLimit l now url threshold ttl).2.counts url).isSome = true) ∨
      (shouldLimit l now url threshold ttl).2 = sweep now ttl l := by
  cases hc : mapGet (sweep now ttl l).counts url with
  | none =>
    rw [shouldLimit_of_none hc]
    exact Or.inl ⟨by simp [mapGet_mapSet_self], by simp [mapGet_mapSet_self]⟩
  | some c =>
    by_cases hge : c ≥ threshold
    · rw [shouldLimit_of_ge hc hge]
      exact Or.inr rfl
    · rw [shouldLimit_of_lt hc (not_le.mp hge)]
      exact Or.inl ⟨by simp [mapGet_mapSet_self], by simp [mapGet_mapSet_self]⟩

/-- C11: if `counts` and `lastAccess` have the same set of keys before a
`shouldLimit` call, they have the same set of keys after it, for every
identifier, threshold, TTL and time. -/
theorem shouldLimit_same_keys (l : Limiter) (now : Int) (id : String) (threshold ttl : Int)
    (h : ∀ k, (mapGet l.lastAccess k).isSome = (mapGet l.counts k).isSome) :
    ∀ k, (mapGet (shouldLimit l now id threshold ttl).2.lastAccess k).isSome =
      (mapGet (shouldLimit l now id threshold ttl).2.counts k).isSome := by
  intro k
  by_cases hk : k = id
  · subst hk
    rcases shouldLimit_self_cases l now k threshold ttl with ⟨h1, h2⟩ | h3
    · rw [h1, h2]
    · rw [h3]
      exact sweep_same_keys now ttl l h k
  · obtain ⟨f1, f2⟩ := shouldLimit_frame l now id threshold ttl hk
    rw [f1, f2]
    exact sweep_same_keys now ttl l h k

/-- Witness of C11: "a" and "b" are tracked in both maps, "b" has expired, "c" is
reported: afterwards "a" and "c" are in both maps and "b" is in neither. -/
theorem shouldLimit_same_keys_witness :
    ((mapGet (shouldLimit (Limiter.mk [("a", 15), ("b", 2)] [("a", 2), ("b", 1)])
        20 "c" 2 10).2.lastAccess "b").isSome =
      (mapGet (shouldLimit (Limiter.mk [("a", 15), ("b", 2)] [("a", 2), ("b", 1)])
        20 "c" 2 10).2.counts "b").isSome) ∧
    (shouldLimit (Limiter.mk [("a", 15), ("b", 2)] [("a", 2), ("b", 1)]) 20 "c" 2 10).2 =
      Limiter.mk [("c", 20), ("a", 15)] [("c", 1), ("a", 2)] :=
  ⟨shouldLimit_same_keys (Limiter.mk [("a", 15), ("b", 2)] [("a", 2), ("b", 1)]) 20 "c" 2 10
    (by
      intro k
      by_cases ha : "a" = k
      · simp [mapGet, ha]
      · by_cases hb : "b" = k
        · simp [mapGet, ha, hb]
        · simp [mapGet, ha, hb]) "b", by decide⟩

/-! ## What a refused report leaves behind -/

/-- A refused report (result `true`) leaves `lastAccess[url]` as it was. -/
theorem shouldLimit_true_lastAccess (l : Limiter) (now : Int) (url : String)
    (threshold ttl : Int) (h : (shouldLimit l now url threshold ttl).1 = true) :
    mapGet (shouldLimit l now url threshold ttl).2.lastAccess url =
      mapGet l.lastAccess url := by
  cases hc : mapGet (sweep now ttl l).counts url with
  | none =>
    rw [shouldLimit_of_none hc] at h
    exact absurd h (by simp)
  | some c =>
    by_cases hge : c ≥ threshold
    · rw [shouldLimit_of_ge hc hge, sweep_lastAccess]
      cases hexp : isExpired now ttl l url with
      | false => simp
      | true =>
        rw [sweep_counts, hexp] at hc
        simp at hc
    · rw [shouldLimit_of_lt hc (not_le.mp hge)] at h
      exact absurd h (by simp)

/-- Counterexample to C12 as stated: "a" was accepted at time 0 and has reached
the threshold 1; the report made at time 5 (TTL 10) is refused and
`lastAccess["a"]` is not 5. -/
theorem shouldLimit_lastAccess_not_now :
    (shouldLimit (Limiter.mk [("a", 0)] [("a", 1)]) 5 "a" 1 10).1 = true ∧
      mapGet (shouldLimit (Limiter.mk [("a", 0)] [("a", 1)]) 5 "a" 1 10).2.lastAccess "a" ≠
        some 5 := by
  decide

/-- C12, amended: after `shouldLimit(id, threshold, ttl)` is called at time `now`,
`lastAccess[id] = now` when the report was accepted (result `false`), and
`lastAccess[id]` is what it was before the call when the report was found over
the limit (result `true`): `lastAccess[id]` is the time of the most recent
accepted report. -/
theorem shouldLimit_lastAccess (l : Limiter) (now : Int) (id : String) (threshold ttl : Int) :
    ((shouldLimit l now id threshold ttl).1 = false →
        mapGet (shouldLimit l now id threshold ttl).2.lastAccess id = some now) ∧
      ((shouldLimit l now id threshold ttl).1 = true →
        mapGet (shouldLimit l now id threshold ttl).2.lastAccess id =
          mapGet l.lastAccess id) := by
  refine ⟨?_, shouldLimit_true_lastAccess l now id threshold ttl⟩
  intro h
  cases hc : mapGet (sweep now ttl l).counts id with
  | none =>
    rw [shouldLimit_of_none hc]
    exact mapGet_mapSet_self _ _ _
  | some c =>
    by_cases hge : c ≥ threshold
    · rw [shouldLimit_of_ge hc hge] at h
      exact absurd h (by simp)
    · rw [shouldLimit_of_lt hc (not_le.mp hge)]
      exact mapGet_mapSet_self _ _ _

/-- Witness of the amended C12: the refused report of the counterexample leaves
`lastAccess["a"]` at 0, and an accepted report (threshold 2) sets it to 5. -/
theorem shouldLimit_lastAccess_witness :
    mapGet (shouldLimit (Limiter.mk [("a", 0)] [("a", 1)]) 5 "a" 1 10).2.lastAccess "a" =
        mapGet (Limiter.mk [("a", 0)] [("a", 1)]).lastAccess "a" ∧
      mapGet (shouldLimit (Limiter.mk [("a", 0)] [("a", 1)]) 5 "a" 2 10).2.lastAccess "a" =
        some 5 :=
  ⟨(shouldLimit_lastAccess (Limiter.mk [("a", 0)] [("a", 1)]) 5 "a" 1 10).2 (by decide),
   (shouldLimit_lastAccess (Limiter.mk [("a", 0)] [("a", 1)]) 5 "a" 2 10).1 (by decide)⟩

/-! ## The largest TTL -/

/-- With the largest TTL, `1<<63 - 1` nanoseconds, nothing expires: "a", last
accepted 300 years before the call and at the threshold, is still refused. -/
theorem shouldLimit_maxDuration_keeps :
    shouldLimit (Limiter.mk [("a", 0)] [("a", 2)]) 9460800000000000000 "a" 2 maxDuration =
      (true, Limiter.mk [("a", 0)] [("a", 2)]) := by
  decide

/-! ## Threshold zero -/

/-- Counterexample to C14 as stated: with threshold 0 the first report of "a" on
the empty limiter does not return `true`, and it does record the report. -/
theorem shouldLimit_zero_first_accepted :
    (shouldLimit Limiter.empty 0 "a" 0 10).1 ≠ true ∧
      mapGetD (shouldLimit Limiter.empty 0 "a" 0 10).2.counts "a" ≠ 0 := by
  decide

/-- C14, amended: with threshold 0, the first `shouldLimit(id, 0, ttl)` call on
an identifier that has no count returns `false` and records the report
(`counts[id] = 1`, `lastAccess[id] = now`); it is the next call, made within
`ttl`, that returns `true`, with `counts[id]` left at 1. -/
theorem shouldLimit_zero (l : Limiter) (now : Int) (id : String) (ttl : Int)
    (h : mapGet l.counts id = none) :
    (shouldLimit l now id 0 ttl).1 = false ∧
      mapGet (shouldLimit l now id 0 ttl).2.counts id = some 1 ∧
      mapGet (shouldLimit l now id 0 ttl).2.lastAccess id = some now ∧
      ∀ now2 : Int, now2 - now ≤ ttl →
        (shouldLimit (shouldLimit l now id 0 ttl).2 now2 id 0 ttl).1 = true ∧
          mapGet (shouldLimit (shouldLimit l now id 0 ttl).2 now2 id 0 ttl).2.counts id =
            some 1 := by
  obtain ⟨r1, r2, r3⟩ := shouldLimit_untracked l now id 0 ttl h
  refine ⟨r1, r3, r2, ?_⟩
  intro now2 h2
  obtain ⟨q1, _, q3⟩ := shouldLimit_fresh_ge r2 h2 r3 (show (1 : Int) ≥ 0 by decide)
  exact ⟨q1, q3⟩

/-- Witness of the amended C14: the empty limiter, "a" reported at time 0 with a
TTL of 10. -/
theorem shouldLimit_zero_witness :
    (shouldLimit Limiter.empty 0 "a" 0 10).1 = false ∧
      mapGet (shouldLimit Limiter.empty 0 "a" 0 10).2.counts "a" = some 1 ∧
      mapGet (shouldLimit Limiter.empty 0 "a" 0 10).2.lastAccess "a" = some 0 ∧
      ∀ now2 : Int, now2 - 0 ≤ 10 →
        (shouldLimit (shouldLimit Limiter.empty 0 "a" 0 10).2 now2 "a" 0 10).1 = true ∧
          mapGet (shouldLimit (shouldLimit Limiter.empty 0 "a" 0 10).2 now2 "a" 0 10).2.counts
            "a" = some 1 :=
  shouldLimit_zero Limiter.empty 0 "a" 10 rfl

/-! ## Counts always come with a last access -/

/-- One operation keeps every counted identifier tracked in `lastAccess`. -/
theorem applyOp_counts_tracked (l : Limiter) (op : Op)
    (h : ∀ k, (mapGet l.counts k).isSome = true → (mapGet l.lastAccess k).isSome = true) :
    ∀ k, (mapGet (applyOp l op).counts k).isSome = true →
      (mapGet (applyOp l op).lastAccess k).isSome = true := by
  intro k
  cases op with
  | tick =>
    simp only [applyOp, tick_counts]
    intro hk
    simp [mapGet] at hk
  | call url now threshold ttl =>
    simp only [applyOp]
    by_cases hk : k = url
    · subst hk
      rcases shouldLimit_self_cases l now k threshold ttl with ⟨h1, _⟩ | h3
      · intro _
        exact h1
      · rw [h3]
        exact sweep_counts_tracked now ttl l h k
    · obtain ⟨f1, f2⟩ := shouldLimit_frame l now url threshold ttl hk
      rw [f1, f2]
      exact sweep_counts_tracked now ttl l h k

theorem applyOps_counts_tracked (ops : List Op) :
    ∀ l : Limiter,
      (∀ k, (mapGet l.counts k).isSome = true → (mapGet l.lastAccess k).isSome = true) →
      ∀ k, (mapGet (applyOps l ops).counts k).isSome = true →
        (mapGet (applyOps l ops).lastAccess k).isSome = true := by
  induction ops with
  | nil => intro l h; exact h
  | cons op ops ih =>
    intro l h
    exact ih (applyOp l op) (applyOp_counts_tracked l op h)

/-- C16: in every limiter reached from the empty one by any sequence of
`shouldLimit` calls (any identifiers, thresholds, TTLs and times) and ticker
firings, every identifier present in `counts` is present in `lastAccess`. -/
theorem applyOps_counts_subset_lastAccess (ops : List Op) (k : String) :
    (mapGet (applyOps Limiter.empty ops).counts k).isSome = true →
      (mapGet (applyOps Limiter.empty ops).lastAccess k).isSome = true := by
  apply applyOps_counts_tracked ops Limiter.empty
  intro k' hk'
  simp [Limiter.empty, mapGet] at hk'

/-- Witness of C16: "a" is reported twice, the ticker fires, "b" is reported: "b"
has a count and a last access, "a" only a last access. -/
theorem applyOps_counts_subset_lastAccess_witness :
    (mapGet (applyOps Limiter.empty
        [Op.call "a" 0 2 10, Op.call "a" 1 5 7, Op.tick, Op.call "b" 3 1 10]).lastAccess
      "b").isSome = true ∧
    (applyOps Limiter.empty
        [Op.call "a" 0 2 10, Op.call "a" 1 5 7, Op.tick, Op.call "b" 3 1 10]) =
      Limiter.mk [("b", 3), ("a", 1)] [("b", 1)] :=
  ⟨applyOps_counts_subset_lastAccess
      [Op.call "a" 0 2 10, Op.call "a" 1 5 7, Op.tick, Op.call "b" 3 1 10] "b" (by decide),
    by decide⟩

/-! ## Other identifiers are left alone -/

/-- C17: for every key `k` other than the reported `id` that is tracked with
`now - lastAccess[k] <= ttl`, `shouldLimit(id, threshold, ttl)` leaves
`lastAccess[k]` and `counts[k]` unchanged, the absence of a count included. -/
theorem shouldLimit_frame_fresh (l : Limiter) (now : Int) (id : String) (threshold ttl : Int)
    (k : String) (v : Int) (hk : k ≠ id) (hv : mapGet l.lastAccess k = some v)
    (hfresh : now - v ≤ ttl) :
    mapGet (shouldLimit l now id threshold ttl).2.lastAccess k = mapGet l.lastAccess k ∧
      mapGet (shouldLimit l now id threshold ttl).2.counts k = mapGet l.counts k := by
  obtain ⟨f1, f2⟩ := shouldLimit_frame l now id threshold ttl hk
  obtain ⟨s1, s2⟩ := sweep_of_fresh hv hfresh
  rw [f1, f2, s1, s2, hv]
  exact ⟨rfl, rfl⟩

/-- Witness of C17: "b" (age 10, count 4) and "c" (age 3, no count) keep their
bindings when "a" is reported at time 20 with a TTL of 10. -/
theorem shouldLimit_frame_fresh_witness :
    (mapGet (shouldLimit (Limiter.mk [("b", 10), ("c", 17)] [("b", 4)])
        20 "a" 2 10).2.lastAccess "b" =
        mapGet (Limiter.mk [("b", 10), ("c", 17)] [("b", 4)]).lastAccess "b" ∧
      mapGet (shouldLimit (Limiter.mk [("b", 10), ("c", 17)] [("b", 4)])
        20 "a" 2 10).2.counts "b" =
        mapGet (Limiter.mk [("b", 10), ("c", 17)] [("b", 4)]).counts "b") ∧
    (mapGet (shouldLimit (Limiter.mk [("b", 10), ("c", 17)] [("b", 4)])
        20 "a" 2 10).2.lastAccess "c" =
        mapGet (Limiter.mk [("b", 10), ("c", 17)] [("b", 4)]).lastAccess "c" ∧
      mapGet (shouldLimit (Limiter.mk [("b", 10), ("c", 17)] [("b", 4)])
        20 "a" 2 10).2.counts "c" =
        mapGet (Limiter.mk [("b", 10), ("c", 17)] [("b", 4)]).counts "c") :=
  ⟨shouldLimit_frame_fresh (Limiter.mk [("b", 10), ("c", 17)] [("b", 4)]) 20 "a" 2 10
      "b" 10 (by decide) rfl (by decide),
   shouldLimit_frame_fresh (Limiter.mk [("b", 10), ("c", 17)] [("b", 4)]) 20 "a" 2 10
      "c" 17 (by decide) rfl (by decide)⟩

/-! ## Where the handler and `shouldLimit` disagree -/

/-- A refused report leaves a count that has reached the threshold. -/
theorem shouldLimit_true_count_ge (l : Limiter) (now : Int) (url : String)
    (threshold ttl : Int) (h : (shouldLimit l now url threshold ttl).1 = true) :
    mapGetD (shouldLimit l now url threshold ttl).2.counts url ≥ threshold := by
  cases hc : mapGet (sweep now ttl l).counts url with
  | none =>
    rw [shouldLimit_of_none hc] at h
    exact absurd h (by simp)
  | some c =>
    by_cases hge : c ≥ threshold
    · rw [shouldLimit_of_ge hc hge, mapGetD_of_mapGet hc]
      exact hge
    · rw [shouldLimit_of_lt hc (not_le.mp hge)] at h
      exact absurd h (by simp)

/-- The run of the handler is the run of `shouldLimit` with, next to each result,
the comparison of the count left behind with the threshold. -/
theorem runHandler_eq_map (id : String) (T ttl : Int) (ts : List Int) :
    ∀ l : Limiter, runHandler id T ttl l ts =
      (runCalls id T ttl l ts).map
        (fun c => (c.limited, decide (mapGetD c.after.counts id ≥ T))) := by
  induction ts with
  | nil => intro l; rfl
  | cons t ts ih =>
    intro l
    simp only [runHandler, runCalls, List.map_cons, report]
    rw [ih]

/-- The results and counts of a run of calls on one identifier from the empty
limiter, every call being made at most `ttl` after the previous accepted one. -/
theorem runCalls_from_empty (T ttl : Int) (id : String) (ts : List Int) (hT : 1 ≤ T)
    (hw : withinTtl ttl none (runCalls id T ttl Limiter.empty ts) = true)
    (n : Nat) (c : CallRecord) (hn : (runCalls id T ttl Limiter.empty ts)[n]? = some c) :
    ((n : Int) + 1 ≤ T →
        c.limited = false ∧ mapGet c.after.counts id = some ((n : Int) + 1)) ∧
      (T < (n : Int) + 1 → c.limited = true ∧ mapGet c.after.counts id = some T) := by
  cases ts with
  | nil => simp [runCalls] at hn
  | cons t ts =>
    simp only [runCalls, withinTtl] at hw hn
    obtain ⟨r1, r2, r3⟩ := shouldLimit_untracked Limiter.empty t id T ttl rfl
    rw [r1] at hw
    cases n with
    | zero =>
      simp only [List.getElem?_cons_zero, Option.some.injEq] at hn
      subst hn
      simp only [Nat.cast_zero, zero_add]
      exact ⟨fun _ => ⟨r1, r3⟩, fun h => absurd h (by omega)⟩
    | succ m =>
      simp only [List.getElem?_cons_succ] at hn
      have key := runCalls_tracked id T ttl ts _ t 1 r2 r3 hT (by simpa using hw) m c hn
      have e : ((m + 1 : Nat) : Int) + 1 = 1 + (m : Int) + 1 := by
        push_cast; ring
      rw [e]
      exact key

/-- When nothing takes the mutex between the handler's `shouldLimit` call and its
read of `counts[url]` (the handler as `report`): the `blocked` value differs from
the boolean of the `shouldLimit` call exactly when `shouldLimit` returned `false`
and the count it left is `>= threshold`; when `shouldLimit` returns `true`,
`blocked` is `true`.  For `T >= 1`, in a run of reports of one identifier from the
empty limiter (each made at most `ttl` after the previous accepted one, no ticker
firing in between), the two differ at report number `T` and at no other. -/
theorem report_differs_iff :
    (∀ (l : Limiter) (now : Int) (url : String) (threshold ttl : Int),
      ((report l now url threshold ttl).1 ≠ (shouldLimit l now url threshold ttl).1 ↔
        ((shouldLimit l now url threshold ttl).1 = false ∧
          mapGetD (shouldLimit l now url threshold ttl).2.counts url ≥ threshold)) ∧
      ((shouldLimit l now url threshold ttl).1 = true →
        (report l now url threshold ttl).1 = true)) ∧
    (∀ (T ttl : Int) (id : String) (ts : List Int), 1 ≤ T →
      withinTtl ttl none (runCalls id T ttl Limiter.empty ts) = true →
      ∀ (n : Nat) (p : Bool × Bool), (runHandler id T ttl Limiter.empty ts)[n]? = some p →
        (p.2 ≠ p.1 ↔ (n : Int) + 1 = T)) := by
  constructor
  · intro l now url threshold ttl
    have hrep : (report l now url threshold ttl).1 =
        decide (mapGetD (shouldLimit l now url threshold ttl).2.counts url ≥ threshold) := rfl
    have hge := shouldLimit_true_count_ge l now url threshold ttl
    rw [hrep]
    cases hb : (shouldLimit l now url threshold ttl).1 with
    | true =>
      have h := hge hb
      simp [h]
    | false => simp
  · intro T ttl id ts hT hw n p hn
    rw [runHandler_eq_map, List.getElem?_map] at hn
    cases hc : (runCalls id T ttl Limiter.empty ts)[n]? with
    | none => rw [hc] at hn; simp at hn
    | some c =>
      rw [hc] at hn
      simp only [Option.map_some', Option.some.injEq] at hn
      subst hn
      obtain ⟨k1, k2⟩ := runCalls_from_empty T ttl id ts hT hw n c hc
      by_cases hle : (n : Int) + 1 ≤ T
      · obtain ⟨c1, c2⟩ := k1 hle
        simp only [c1, mapGetD_of_mapGet c2]
        constructor
        · intro h
          have : (n : Int) + 1 ≥ T := by simpa using h
          omega
        · intro h
          have : (n : Int) + 1 ≥ T := by omega
          simpa using this
      · obtain ⟨c1, c2⟩ := k2 (not_le.mp hle)
        simp only [c1, mapGetD_of_mapGet c2]
        constructor
        · intro h
          exact absurd h (by simp)
        · intro h
          omega

/-- An instance of `report_differs_iff`: threshold 3, TTL 10, five reports of "a"
at times 0..4: the handler and `shouldLimit` differ at the third report only. -/
theorem report_differs_iff_witness :
    (∀ (n : Nat) (p : Bool × Bool),
      (runHandler "a" 3 10 Limiter.empty [0, 1, 2, 3, 4])[n]? = some p →
        (p.2 ≠ p.1 ↔ (n : Int) + 1 = 3)) ∧
    runHandler "a" 3 10 Limiter.empty [0, 1, 2, 3, 4] =
      [(false, false), (false, false), (false, true), (true, true), (true, true)] :=
  ⟨report_differs_iff.2 3 10 "a" [0, 1, 2, 3, 4] (by decide) (by decide), by decide⟩

/-- With nothing in between, the interleaved handler is the sequential one. -/
theorem reportInterleaved_nil (l : Limiter) (now : Int) (url : String) (threshold ttl : Int) :
    reportInterleaved [] l now url threshold ttl = report l now url threshold ttl := rfl

/-- C15, on the code: threshold 3, TTL 10; "a" has been reported at times 0, 1
and 2 and is reported again at time 5.  `shouldLimit` returns `true`; the ticker
fires after `shouldLimit` has released the mutex and before the handler reads
`counts["a"]`, and the handler answers `blocked = false`.  With nothing in
between it answers `true`. -/
theorem reportInterleaved_not_blocked :
    exec 3 10 Limiter.empty [Event.call "a" 0, Event.call "a" 1, Event.call "a" 2] =
        Limiter.mk [("a", 2)] [("a", 3)] ∧
      (shouldLimit (Limiter.mk [("a", 2)] [("a", 3)]) 5 "a" 3 10).1 = true ∧
      (reportInterleaved [Event.reset 5] (Limiter.mk [("a", 2)] [("a", 3)]) 5 "a" 3 10).1 =
        false ∧
      (reportInterleaved [] (Limiter.mk [("a", 2)] [("a", 3)]) 5 "a" 3 10).1 = true := by
  decide

/-! ## The mutex -/

theorem heldAfter_append (held : Bool) (xs ys : List Access) :
    heldAfter held (xs ++ ys) = heldAfter (heldAfter held xs) ys := by
  induction xs generalizing held with
  | nil => rfl
  | cons a xs ih =>
    cases a <;> simp [heldAfter, ih]

theorem lockedAccesses_append (held : Bool) (xs ys : List Access) :
    lockedAccesses held (xs ++ ys) =
      (lockedAccesses held xs && lockedAccesses (heldAfter held xs) ys) := by
  induction xs generalizing held with
  | nil => simp [lockedAccesses, heldAfter]
  | cons a xs ih =>
    cases a <;> simp [lockedAccesses, heldAfter, ih, Bool.and_assoc]

/-- The limiter threaded through the accesses of the expiry loop is the one the
expiry loop computes. -/
theorem foldl_sweepStepAccesses_fst (now ttl : Int) (ks : List String) :
    ∀ st : Limiter × List Access,
      (ks.foldl (sweepStepAccesses now ttl) st).1 = ks.foldl (sweepStep now ttl) st.1 := by
  induction ks with
  | nil => intro st; rfl
  | cons k ks ih =>
    intro st
    rw [List.foldl_cons, List.foldl_cons, ih]
    congr 1
    unfold sweepStepAccesses sweepStep
    cases mapGet st.1.lastAccess k with
    | none => rfl
    | some v =>
      by_cases hv : since now v > toDuration ttl
      · simp only [hv, if_true]
      · simp only [hv, if_false]

/-- The expiry loop only reads and writes, so under the mutex it keeps the
discipline and the mutex. -/
theorem foldl_sweepStepAccesses_locked (now ttl : Int) (ks : List String) :
    ∀ st : Limiter × List Access,
      lockedAccesses true st.2 = true ∧ heldAfter true st.2 = true →
      lockedAccesses true (ks.foldl (sweepStepAccesses now ttl) st).2 = true ∧
        heldAfter true (ks.foldl (sweepStepAccesses now ttl) st).2 = true := by
  induction ks with
  | nil => intro st h; exact h
  | cons k ks ih =>
    intro st h
    rw [List.foldl_cons]
    apply ih
    unfold sweepStepAccesses
    cases mapGet st.1.lastAccess k with
    | none => exact h
    | some v =>
      by_cases hv : since now v > toDuration ttl
      · simp only [hv, if_true, lockedAccesses_append, heldAfter_append, h.1, h.2]
        simp [lockedAccesses, heldAfter]
      · simp only [hv, if_false, lockedAccesses_append, heldAfter_append, h.1, h.2]
        simp [lockedAccesses, heldAfter]

theorem sweepAccesses_locked (now ttl : Int) (l : Limiter) :
    lockedAccesses true (sweepAccesses now ttl l) = true ∧
      heldAfter true (sweepAccesses now ttl l) = true :=
  foldl_sweepStepAccesses_locked now ttl _ (l, []) ⟨rfl, rfl⟩

/-- Every access of `shouldLimit` is made under the mutex, which is released at
the end. -/
theorem shouldLimitAccesses_locked (l : Limiter) (now : Int) (url : String)
    (threshold ttl : Int) :
    lockedAccesses false (shouldLimitAccesses l now url threshold ttl) = true ∧
      heldAfter false (shouldLimitAccesses l now url threshold ttl) = false := by
  obtain ⟨h1, h2⟩ := sweepAccesses_locked now ttl l
  unfold shouldLimitAccesses
  cases (shouldLimit l now url threshold ttl).1 <;>
    simp [lockedAccesses_append, heldAfter_append, lockedAccesses, heldAfter, h1, h2]

/-- Every access of the ticker is made under the mutex. -/
theorem tickAccesses_locked (l : Limiter) : lockedAccesses false (tickAccesses l) = true := by
  have h : ∀ ks : List String,
      lockedAccesses true (ks.flatMap
        (fun _ => [Access.read MapName.counts, Access.write MapName.counts])) = true ∧
      heldAfter true (ks.flatMap
        (fun _ => [Access.read MapName.counts, Access.write MapName.counts])) = true := by
    intro ks
    induction ks with
    | nil => exact ⟨rfl, rfl⟩
    | cons k ks ih =>
      simp only [List.flatMap_cons, List.cons_append, List.nil_append, lockedAccesses,
        heldAfter, Bool.true_and]
      exact ih
  obtain ⟨a, b⟩ := h (mapKeys l.counts)
  have e0 : lockedAccesses false [Access.lock] = true := rfl
  have e1 : heldAfter false [Access.lock] = true := rfl
  have e2 : lockedAccesses true [Access.unlock] = true := rfl
  unfold tickAccesses
  rw [lockedAccesses_append, lockedAccesses_append, heldAfter_append, e0, e1, a, b, e2]
  rfl

/-- C13, on the code: `shouldLimit` and the ticker make every access to the maps
under the mutex, but the `/report` handler does not: its reads of
`lim.counts[req.URL]` come after `shouldLimit` has released the mutex. -/
theorem reportAccesses_not_locked (l : Limiter) (now : Int) (url : String)
    (threshold ttl : Int) :
    lockedAccesses false (shouldLimitAccesses l now url threshold ttl) = true ∧
      lockedAccesses false (tickAccesses l) = true ∧
      lockedAccesses false (reportAccesses l now url threshold ttl) = false := by
  obtain ⟨h1, h2⟩ := shouldLimitAccesses_locked l now url threshold ttl
  refine ⟨h1, tickAccesses_locked l, ?_⟩
  unfold reportAccesses
  rw [lockedAccesses_append, h1, h2]
  rfl

end RateLimiter
